import Mathlib

/-!
Verification of the `statetrie` Merkle-Patricia trie core (go-algorand,
`crypto/statetrie`).  The embedding below translates `trie.go` (the store
manager: Add / Delete / SetRoot / RootHash / child / merge / Commit / getNode)
into Lean.  The node algebra (`node.go`: node variants, serialization,
descendHash, descendHashWithCommit) and the nibble utilities are not part of
the provided sources; those definitions are modelled from the specification
(§3, §4.1, §4.2, §4.4) and validated against the test vectors that are in the
sources (`TestNibbleUtilities`, `TestNibbles`).

Machine integers are modelled as `Nat` (byte values 0..255, nibble values
0..15 as `Fin 16`); Go errors are an explicit `GoErr` sum; Go `panic` is an
explicit outcome constructor.  The collision-resistant hash primitive is an
abstract parameter `H : List Nat → List Nat` of every definition that hashes.
-/

/-- Error kinds surfaced by the trie (spec §7).  `backing` wraps a backing
store failure, identified here by a numeric code standing for the wrapped
cause. -/
inductive GoErr where
  | emptyKey
  | keyTooLong
  | badNibble
  | badEncoding
  | backing (code : Nat)
deriving DecidableEq, Repr

/-- Modelled from the spec: the nibble utilities file is not in `src`.
Spec §4.1: pack places nibble `n[i]` in the high half of byte `i/2` when `i`
is even and the low half otherwise; a trailing odd nibble is padded with a
zero low half.  Validated against `TestNibbleUtilities` in the sources. -/
def packPairs : List Nat → List Nat
  | [] => []
  | [a] => [a * 16]
  | a :: b :: rest => (a * 16 + b) :: packPairs rest

/-- Modelled from the spec (§4.1): `pack` fails with `BadNibble` when an
element exceeds 15, otherwise returns the packed bytes and the parity flag
(`half = (length is odd)`). -/
def pack (n : List Nat) : Option (List Nat × Bool) :=
  if n.all (fun x => x < 16) then some (packPairs n, n.length % 2 == 1) else none

/-- Modelled from the spec (§4.1): split every byte into its high and low
nibble. -/
def unpackBytes : List Nat → List Nat
  | [] => []
  | b :: rest => b / 16 :: b % 16 :: unpackBytes rest

/-- Modelled from the spec (§4.1): inverse of `pack`; when `half` is set the
trailing padding nibble is dropped. -/
def unpack (bs : List Nat) (half : Bool) : List Nat :=
  if half then (unpackBytes bs).dropLast else unpackBytes bs

theorem unpackBytes_packPairs : ∀ n : List Nat, (∀ x ∈ n, x < 16) →
    unpackBytes (packPairs n) = if n.length % 2 = 1 then n ++ [0] else n
  | [], _ => rfl
  | [a], h => by
    have ha : a < 16 := h a (by simp)
    simp [packPairs, unpackBytes]
  | a :: b :: rest, h => by
    have ha : a < 16 := h a (by simp)
    have hb : b < 16 := h b (by simp)
    have ih := unpackBytes_packPairs rest (fun x hx => h x (by simp [hx]))
    have hd : (a * 16 + b) / 16 = a := by omega
    have hm : (a * 16 + b) % 16 = b := by omega
    have hmod : (rest.length + 1 + 1) % 2 = rest.length % 2 := by omega
    by_cases hc : rest.length % 2 = 1 <;>
      simp [packPairs, unpackBytes, ih, hd, hm, hmod, hc]

/-- Claim C7: for every nibble sequence with values in 0..15, unpacking the
packed form (with its parity flag) returns the original sequence; moreover
`[0x0,0x1,0x2,0x3,0x4]` packs to `[0x01,0x23,0x40]` with `half = true`,
`[0x0,0x1,0x2,0x3,0x4,0x5]` packs to `[0x01,0x23,0x45]` with `half = false`,
and the empty sequence packs to `[]` with `half = false`. -/
theorem nibble_pack_unpack_roundtrip :
    (∀ n : List Nat, (∀ x ∈ n, x < 16) →
      ∃ bs hf, pack n = some (bs, hf) ∧ unpack bs hf = n) ∧
    pack [0x0, 0x1, 0x2, 0x3, 0x4] = some ([0x01, 0x23, 0x40], true) ∧
    pack [0x0, 0x1, 0x2, 0x3, 0x4, 0x5] = some ([0x01, 0x23, 0x45], false) ∧
    pack [] = some ([], false) := by
  refine ⟨?_, by decide, by decide, by decide⟩
  intro n h
  refine ⟨packPairs n, n.length % 2 == 1, ?_, ?_⟩
  · simp [pack]
    intro x hx
    exact h x hx
  · rcases Nat.even_or_odd n.length with he | ho
    · have h2 : n.length % 2 = 0 := Nat.even_iff.mp he
      simp [unpack, h2, unpackBytes_packPairs n h]
    · have h2 : n.length % 2 = 1 := Nat.odd_iff.mp ho
      simp [unpack, h2, unpackBytes_packPairs n h]

/-- Witness for C7: the round-trip property evaluated at the concrete
sequence `[0x0,0x1,0x2,0x3,0x4]`. -/
theorem nibble_pack_unpack_roundtrip_witness :
    ∃ bs hf, pack [0x0, 0x1, 0x2, 0x3, 0x4] = some (bs, hf) ∧
      unpack bs hf = [0x0, 0x1, 0x2, 0x3, 0x4] :=
  nibble_pack_unpack_roundtrip.1 [0x0, 0x1, 0x2, 0x3, 0x4] (by decide)

/-- Digests are 32-byte strings; modelled as lists of byte values. -/
abbrev Digest := List Nat

/-- The all-zero digest, the root hash of the empty trie. -/
def zeroDigest : Digest := List.replicate 32 0

/-- Nibble paths with validity by construction (each element in 0..15). -/
abbrev Nibs := List (Fin 16)

/-- Total packing of a valid nibble path (spec §4.1 restricted to valid
nibbles, used by node serialization). -/
def packPairsF : Nibs → List Nat
  | [] => []
  | [a] => [a.val * 16]
  | a :: b :: rest => (a.val * 16 + b.val) :: packPairsF rest

/-- Modelled from the spec: the nibble serialization used for database keys
(§4.1, §6) — the packed bytes followed by a parity byte (1 when the length is
odd, 3 when even), matching the `sampleSerialization` vectors in the sources'
`TestNibbles`. -/
def nibSer (n : Nibs) : List Nat :=
  packPairsF n ++ [if n.length % 2 = 1 then 1 else 3]

mutual
/-- Modelled from the spec: the node algebra of `node.go` is not in `src`.
Spec §3: a node is a leaf, an extension, a branch, or an unmaterialized
placeholder (`dbn`, standing for the source's DBNode) carrying only its path
and hash; `absent` models a nil child slot of a branch.  Each materialized
node carries its full path from the root (`key`) and an optional cached
digest. -/
inductive Node where
  | leaf (key keyEnd : Nibs) (valueHash : Digest) (cache : Option Digest)
  | ext (key sharedKey : Nibs) (child : Node) (cache : Option Digest)
  | branch (key : Nibs) (children : NodeList) (valueHash : Digest) (cache : Option Digest)
  | dbn (key : Nibs) (hash : Digest)
  | absent
inductive NodeList where
  | nil
  | cons (hd : Node) (tl : NodeList)
end

/-- Modelled from the spec (§4.2): serialization of a leaf — kind tag (3 for
odd `keyEnd` length, 4 for even), the 32-byte value hash, the packed
`keyEnd`. -/
def serLeaf (keyEnd : Nibs) (valueHash : Digest) : List Nat :=
  (if keyEnd.length % 2 = 1 then 3 else 4) :: valueHash ++ packPairsF keyEnd

/-- Modelled from the spec (§4.2): serialization of an extension — kind tag
(1 for odd `sharedKey` length, 2 for even), the 32-byte child digest, the
packed `sharedKey`. -/
def serExt (sharedKey : Nibs) (childDigest : Digest) : List Nat :=
  (if sharedKey.length % 2 = 1 then 1 else 2) :: childDigest ++ packPairsF sharedKey

/-- Modelled from the spec (§4.2): serialization of a branch — kind tag 5,
the 16 child digests (the zero digest standing for an absent child), the
value hash (zero digest when absent). -/
def serBranch (childDigests : List Digest) (valueHash : Digest) : List Nat :=
  5 :: childDigests.flatten ++ valueHash

mutual
/-- Modelled from the spec (§4.4): the digest of a node — placeholders answer
their carried hash, materialized nodes hash their serialization with every
child reference in digest form.  `H` is the abstract 32-byte hash
primitive. -/
def nodeHash (H : List Nat → List Nat) : Node → Digest
  | .leaf _ ke vh _ => H (serLeaf ke vh)
  | .ext _ sk c _ => H (serExt sk (nodeHash H c))
  | .branch _ cs vh _ => H (serBranch (childHashes H cs) vh)
  | .dbn _ h => h
  | .absent => zeroDigest
def childHashes (H : List Nat → List Nat) : NodeList → List Digest
  | .nil => []
  | .cons c cs => nodeHash H c :: childHashes H cs
end

mutual
/-- Modelled from the spec (§4.4): the post-order hashing walk fills every
materialized node's hash cache with its digest; placeholders are not recursed
into.  This is the functional rendering of the in-place cache writes of
`descendHash` / `descendHashWithCommit`. -/
def fillCaches (H : List Nat → List Nat) : Node → Node
  | .leaf k ke vh _ => .leaf k ke vh (some (H (serLeaf ke vh)))
  | .ext k sk c _ => .ext k sk (fillCaches H c) (some (H (serExt sk (nodeHash H c))))
  | .branch k cs vh _ =>
      .branch k (fillList H cs) vh (some (H (serBranch (childHashes H cs) vh)))
  | .dbn k h => .dbn k h
  | .absent => .absent
def fillList (H : List Nat → List Nat) : NodeList → NodeList
  | .nil => .nil
  | .cons c cs => .cons (fillCaches H c) (fillList H cs)
end

/-- The source's `node.getHash()`: the cache pointer of a materialized node
(nil when unset), the carried hash of a placeholder. -/
def Node.getHash : Node → Option Digest
  | .leaf _ _ _ c => c
  | .ext _ _ _ c => c
  | .branch _ _ _ c => c
  | .dbn _ h => some h
  | .absent => none

mutual
theorem nodeHash_fillCaches (H : List Nat → List Nat) :
    ∀ n : Node, nodeHash H (fillCaches H n) = nodeHash H n
  | .leaf k ke vh c => rfl
  | .ext k sk ch c => by
      simp [fillCaches, nodeHash, nodeHash_fillCaches H ch]
  | .branch k cs vh c => by
      simp [fillCaches, nodeHash, childHashes_fillList H cs]
  | .dbn k h => rfl
  | .absent => rfl
theorem childHashes_fillList (H : List Nat → List Nat) :
    ∀ cs : NodeList, childHashes H (fillList H cs) = childHashes H cs
  | .nil => rfl
  | .cons c cs => by
      simp [fillList, childHashes, nodeHash_fillCaches H c, childHashes_fillList H cs]
end

theorem getHash_fillCaches (H : List Nat → List Nat) (n : Node) (hn : n ≠ .absent) :
    (fillCaches H n).getHash = some (nodeHash H n) := by
  cases n <;> simp [fillCaches, Node.getHash, nodeHash] at hn ⊢

/-- The pending-delete set: database keys (serialized nibble paths) mapped to
their former node contents (`mt.dels` in `trie.go`), rendered as an
association list with map semantics. -/
abbrev Dels := List (List Nat × Node)

/-- Map lookup on the pending-delete set. -/
def delsGet (d : Dels) (k : List Nat) : Option Node :=
  (d.find? (fun kv => kv.1 == k)).map (fun kv => kv.2)

/-- Map assignment `dels[k] = v` (`delNode`, merge). -/
def delsInsert (d : Dels) (k : List Nat) (v : Node) : Dels :=
  (k, v) :: d.filter (fun kv => !(kv.1 == k))

/-- Map removal `delete(dels, k)` (`addNode`). -/
def delsErase (d : Dels) (k : List Nat) : Dels :=
  d.filter (fun kv => !(kv.1 == k))

/-- First-some combinator standing for an early-return `for` loop over a
list. -/
def orO (a b : Option Node) : Option Node :=
  match a with
  | some v => some v
  | none => b

/-- The in-memory trie state of `trie.go`: the root (`mt.root`, nil when the
trie is empty) and the pending-delete set (`mt.dels`).  The backing store
handle and the parent link are passed explicitly where needed. -/
structure Trie where
  root : Option Node
  dels : Dels

/-- `MakeTrie`: open with empty root and fresh pending-delete set
(trie.go:41-45). -/
def makeTrie : Trie := { root := none, dels := [] }

/-- `Trie.RootHash` (trie.go:110-124): the zero digest for an empty trie, the
cached root digest when present, otherwise the digest computed by the hashing
walk.  The modelled hashing walk (`nodeHash`, spec §4.4) is total on
well-formed in-memory nodes, so the error component is always `none`; the Go
signature is kept. -/
def Trie.rootHash (H : List Nat → List Nat) (t : Trie) : Digest × Option GoErr :=
  match t.root with
  | none => (zeroDigest, none)
  | some r =>
    match r.getHash with
    | some h => (h, none)
    | none => (nodeHash H r, none)

/-- `Trie.SetRoot` (trie.go:103-107): replace the root with an unmaterialized
placeholder at the empty path carrying the given digest.  `makeDBNode` is not
in `src`; modelled from the spec (§4.5) as the placeholder constructor. -/
def Trie.setRoot (t : Trie) (d : Digest) : Trie :=
  { t with root := some (Node.dbn [] d) }

/-- `Trie.child` (trie.go:126-130): a nested manager sharing the parent's
root reference, with a fresh pending-delete set.  The parent link is kept
outside the structure and supplied explicitly to `mergeT` /
`commitNested`. -/
def Trie.childT (t : Trie) : Trie := { root := t.root, dels := [] }

/-- `Trie.merge` (trie.go:132-141): the parent's root is overwritten with the
nested root, and every entry of the nested pending-delete set is assigned
into the parent's. -/
def Trie.mergeT (parent t : Trie) : Trie :=
  { root := t.root
    dels := t.dels.foldl (fun acc kv => delsInsert acc kv.1 kv.2) parent.dels }

/-- One operation of the write batch built during `Commit`. -/
inductive BatchOp where
  | put (key value : List Nat)
  | del (key : List Nat)

/-- The key a batch operation touches. -/
def BatchOp.opKey : BatchOp → List Nat
  | .put k _ => k
  | .del k => k

/-- Outcomes of the fallible backing-store calls made during one `Commit`:
per-key batch-put failures (inside `descendHashWithCommit`), per-key
batch-delete failures, and the `Apply` / `Close` results. -/
structure BatchEnv where
  putErr : List Nat → Option GoErr
  delErr : List Nat → Option GoErr
  applyErr : Option GoErr
  closeErr : Option GoErr

/-- What one call to `Commit` did: the resulting in-memory state, the
returned error, the batch contents if `Apply` was reached and succeeded, and
whether `b.Close()` was invoked before returning. -/
structure CommitResult where
  trie : Trie
  err : Option GoErr
  applied : Option (List BatchOp)
  closeCalled : Bool

mutual
/-- Modelled from the spec (§4.4): the batch puts emitted by
`descendHashWithCommit` — post-order, one `put(dbKey(node.key),
serialization)` per materialized node, nothing for placeholders. -/
def commitOps (H : List Nat → List Nat) : Node → List BatchOp
  | .leaf k ke vh _ => [.put (nibSer k) (serLeaf ke vh)]
  | .ext k sk c _ => commitOps H c ++ [.put (nibSer k) (serExt sk (nodeHash H c))]
  | .branch k cs vh _ =>
      commitOpsList H cs ++ [.put (nibSer k) (serBranch (childHashes H cs) vh)]
  | .dbn _ _ => []
  | .absent => []
def commitOpsList (H : List Nat → List Nat) : NodeList → List BatchOp
  | .nil => []
  | .cons c cs => commitOps H c ++ commitOpsList H cs
end

/-- Modelled from the spec (§4.4): `descendHashWithCommit` — the walk aborts
with the first failing batch put; on success every materialized node's cache
is filled and the put list is returned. -/
def descendHashWithCommit (H : List Nat → List Nat)
    (putErr : List Nat → Option GoErr) (n : Node) :
    Except GoErr (Node × List BatchOp) :=
  match (commitOps H n).findSome? (fun op => putErr op.opKey) with
  | some e => .error e
  | none => .ok (fillCaches H n, commitOps H n)

/-- The tail of `Trie.Commit` after the hashing walk (trie.go:156-178): add a
batch delete for every pending-delete key (aborting on the first failure),
`Apply` the batch, `Close` it, and only then reset the pending-delete set.
Error returns leave the in-memory fields untouched; `b.Close()` is invoked
only after a successful `Apply`, mirroring the source's early returns. -/
def commitAfterHash (t : Trie) (env : BatchEnv) (root2 : Option Node)
    (puts : List BatchOp) : CommitResult :=
  match t.dels.findSome? (fun kv => env.delErr kv.1) with
  | some e => { trie := t, err := some e, applied := none, closeCalled := false }
  | none =>
    match env.applyErr with
    | some e => { trie := t, err := some e, applied := none, closeCalled := false }
    | none =>
      let ops := puts ++ t.dels.map (fun kv => BatchOp.del kv.1)
      match env.closeErr with
      | some e =>
          { trie := t, err := some e, applied := some ops, closeCalled := true }
      | none =>
          { trie := { root := root2, dels := [] }, err := none,
            applied := some ops, closeCalled := true }

/-- `Trie.Commit` on a top-level (parentless) trie (trie.go:149-178): run the
hashing walk from the root when there is one, then the batch deletes, apply,
close, and clear the pending-delete set.  Go mutates hash caches in place;
the model records the cache fill in the successful result's root and, like
the source, never replaces the root field on any path. -/
def Trie.commit (H : List Nat → List Nat) (t : Trie) (env : BatchEnv) :
    CommitResult :=
  match t.root with
  | none => commitAfterHash t env none []
  | some r =>
    match descendHashWithCommit H env.putErr r with
    | .error e => { trie := t, err := some e, applied := none, closeCalled := false }
    | .ok (r2, puts) => commitAfterHash t env (some r2) puts

/-- `Trie.Commit` on a nested manager (trie.go:144-147): merge into the
parent, then commit the parent. -/
def Trie.commitNested (H : List Nat → List Nat) (parent t : Trie)
    (env : BatchEnv) : CommitResult :=
  Trie.commit H (Trie.mergeT parent t) env

/-- The maximum key length accepted by `Add` / `Delete` (trie.go:28). -/
def MaxKeyLength : Nat := 65535

/-- The outcome of one call to `descendDelete` (node.go is not in `src`):
the pending-delete set as mutated through `mt` during the walk, the
replacement subtree, the found flag, and the error, mirroring the Go
signature `(node, bool, error)` together with the in-place `mt.dels`
effects. -/
structure DelStep where
  dels : Dels
  repl : Node
  found : Bool
  err : Option GoErr

/-- `Trie.Add` (trie.go:52-80), parametric in the recursive descent
`descendAdd` (whose body lives in the absent `node.go`): reject empty and
over-long keys first; on an empty trie install a fresh leaf (its path key is
removed from the pending-delete set, `addNode`, keyed per spec §4.5/§6);
otherwise run the descent — on error the returned replacement is discarded
and only the descent's pending-delete mutations remain, on success the root
is replaced. -/
def Trie.add (H : List Nat → List Nat)
    (descendAdd : Node → Nibs → Digest → Dels → Dels × Except GoErr Node)
    (t : Trie) (key : Nibs) (value : List Nat) : Trie × Option GoErr :=
  if key.length = 0 then (t, some .emptyKey)
  else if MaxKeyLength < key.length then (t, some .keyTooLong)
  else
    match t.root with
    | none =>
        ({ root := some (Node.leaf [] key (H value) none)
           dels := delsErase t.dels (nibSer []) }, none)
    | some r =>
        let s := descendAdd r key (H value) t.dels
        match s.2 with
        | .error e => ({ t with dels := s.1 }, some e)
        | .ok repl => ({ root := some repl, dels := s.1 }, none)

/-- `Trie.Delete` (trie.go:84-101), parametric in the recursive descent
`descendDelete`: reject empty and over-long keys first; an empty trie reports
`(false, nil)`; otherwise run the descent and replace the root only when it
reported no error and found the key. -/
def Trie.delete (descendDelete : Node → Nibs → Dels → DelStep)
    (t : Trie) (key : Nibs) : Trie × Bool × Option GoErr :=
  if key.length = 0 then (t, false, some .emptyKey)
  else if MaxKeyLength < key.length then (t, false, some .keyTooLong)
  else
    match t.root with
    | none => (t, false, none)
    | some r =>
        let s := descendDelete r key t.dels
        if s.err = none ∧ s.found then
          ({ root := some s.repl, dels := s.dels }, s.found, s.err)
        else
          ({ root := t.root, dels := s.dels }, s.found, s.err)

/-- Unpack store bytes into nibbles (deserialization side; arbitrary byte
values are reduced into nibble range, packed bytes always are). -/
def unpackF (bs : List Nat) (half : Bool) : Nibs :=
  let raw := bs.flatMap fun b =>
    [(⟨b / 16 % 16, Nat.mod_lt _ (by norm_num)⟩ : Fin 16),
     ⟨b % 16, Nat.mod_lt _ (by norm_num)⟩]
  if half then raw.dropLast else raw

/-- Split a flat list of child-digest bytes into 32-byte digests, turning the
zero digest into an absent child and any other into a placeholder child at
the given branch path (spec §4.2, tag 5). -/
def branchChildren (key : Nibs) (idx : Nat) (bs : List Nat) : NodeList :=
  if bs.length < 32 then .nil
  else
    let d := bs.take 32
    let rest := bs.drop 32
    let child := if d = zeroDigest then Node.absent
      else Node.dbn (key ++ [⟨idx % 16, Nat.mod_lt _ (by norm_num)⟩]) d
    .cons child (branchChildren key (idx + 1) rest)
termination_by bs.length
decreasing_by simp_all; omega

/-- Modelled from the spec (§4.2): `deserializeNode` — dispatch on the kind
tag, validate the payload length, and rebuild the node at the given path with
digest children rendered as placeholders.  Unknown tags and truncated
payloads are `BadEncoding`. -/
def deserializeNode (bs : List Nat) (key : Nibs) : Except GoErr Node :=
  match bs with
  | [] => .error .badEncoding
  | tag :: rest =>
    if tag = 1 ∨ tag = 2 then
      if rest.length < 32 then .error .badEncoding
      else
        let sk := unpackF (rest.drop 32) (tag = 1)
        .ok (Node.ext key sk (Node.dbn (key ++ sk) (rest.take 32)) none)
    else if tag = 3 ∨ tag = 4 then
      if rest.length < 32 then .error .badEncoding
      else .ok (Node.leaf key (unpackF (rest.drop 32) (tag = 3)) (rest.take 32) none)
    else if tag = 5 then
      if rest.length < 17 * 32 then .error .badEncoding
      else .ok (Node.branch key (branchChildren key 0 (rest.take (16 * 32)))
        (rest.drop (16 * 32)) none)
    else .error .badEncoding

/-- What one call to `getNode` did.  `panicked` renders the source's
`panic(err)` calls (trie.go:252-263). -/
inductive GetNodeResult where
  | found (n : Node)
  | absent
  | panicked (e : GoErr)

/-- `Trie.getNode` (trie.go:242-270) on an unmaterialized placeholder with
path `key`: when the placeholder's database key is in the pending-delete set,
report absent without consulting the store; otherwise `Get` from the store —
a store error is a `panic(err)` in the source, as is a deserialization
failure; a successful load returns the deserialized node (the source does not
stamp the result's hash cache). -/
def Trie.getNode (t : Trie) (store : List Nat → Except GoErr (List Nat))
    (key : Nibs) : GetNodeResult :=
  let dbKey := nibSer key
  if (delsGet t.dels dbKey).isSome then .absent
  else
    match store dbKey with
    | .error e => .panicked e
    | .ok bs =>
      match deserializeNode bs key with
      | .error e => .panicked e
      | .ok n => .found n

theorem rootHash_eq_of_root (H : List Nat → List Nat) (a b : Trie)
    (h : a.root = b.root) : Trie.rootHash H a = Trie.rootHash H b := by
  unfold Trie.rootHash
  rw [h]

theorem dhwc_ok (H : List Nat → List Nat) (pe : List Nat → Option GoErr)
    (n : Node) (p : Node × List BatchOp) :
    descendHashWithCommit H pe n = .ok p → p = (fillCaches H n, commitOps H n) := by
  unfold descendHashWithCommit
  split
  · intro h
    cases h
  · intro h
    injection h with h2
    exact h2.symm

theorem commitAfterHash_err (t : Trie) (env : BatchEnv) (r2 : Option Node)
    (puts : List BatchOp) :
    ∀ e, (commitAfterHash t env r2 puts).err = some e →
      (commitAfterHash t env r2 puts).trie = t := by
  unfold commitAfterHash
  split
  · intro e _
    rfl
  · split
    · intro e _
      rfl
    · split
      · intro e _
        rfl
      · intro e h
        simp at h

theorem commitAfterHash_ok (t : Trie) (env : BatchEnv) (r2 : Option Node)
    (puts : List BatchOp) :
    (commitAfterHash t env r2 puts).err = none →
    commitAfterHash t env r2 puts =
      { trie := { root := r2, dels := [] }, err := none,
        applied := some (puts ++ t.dels.map (fun kv => BatchOp.del kv.1)),
        closeCalled := true } := by
  unfold commitAfterHash
  split
  · intro h
    simp at h
  · split
    · intro h
      simp at h
    · split
      · intro h
        simp at h
      · intro _
        rfl

theorem commit_err_trie (H : List Nat → List Nat) (t : Trie) (env : BatchEnv) :
    ∀ e, (Trie.commit H t env).err = some e → (Trie.commit H t env).trie = t := by
  unfold Trie.commit
  split
  · exact commitAfterHash_err t env none []
  · split
    · intro e _
      rfl
    · exact commitAfterHash_err t env _ _

/-- The puts contributed by the hashing walk from the root. -/
def rootPuts (H : List Nat → List Nat) (t : Trie) : List BatchOp :=
  match t.root with
  | none => []
  | some r => commitOps H r

theorem commit_ok_eq (H : List Nat → List Nat) (t : Trie) (env : BatchEnv) :
    (Trie.commit H t env).err = none →
    Trie.commit H t env =
      { trie := { root := t.root.map (fillCaches H), dels := [] }, err := none,
        applied := some (rootPuts H t ++ t.dels.map (fun kv => BatchOp.del kv.1)),
        closeCalled := true } := by
  unfold Trie.commit rootPuts
  cases ht : t.root with
  | none =>
    intro h
    simpa using commitAfterHash_ok t env none [] (by simpa using h)
  | some r =>
    intro h
    dsimp only at h ⊢
    cases hd : descendHashWithCommit H env.putErr r with
    | error e =>
      rw [hd] at h
      simp at h
    | ok p =>
      have hp := dhwc_ok H env.putErr r p hd
      subst hp
      rw [hd] at h
      simp only [hd]
      simp only [CommitResult.err] at h
      simpa using commitAfterHash_ok t env (some (fillCaches H r)) (commitOps H r)
        (by simpa using h)

/-- Claim C1: if `Commit` fails (batch put during the hashing walk, batch
delete, `Apply`, or `Close`), the in-memory trie state — root and
pending-delete set — is exactly what it was before the call, so the caller
may retry; only a successful `Commit` clears the pending-delete set. -/
theorem commit_failure_keeps_state (H : List Nat → List Nat) (t : Trie)
    (env : BatchEnv) :
    (∀ e, (Trie.commit H t env).err = some e → (Trie.commit H t env).trie = t) ∧
    ((Trie.commit H t env).err = none → (Trie.commit H t env).trie.dels = []) := by
  refine ⟨commit_err_trie H t env, fun h => ?_⟩
  rw [commit_ok_eq H t env h]

/-- A concrete hash function instantiating the abstract primitive in
witnesses. -/
def hashConst : List Nat → List Nat :=
  fun bs => List.replicate 31 0 ++ [bs.foldl (fun a b => (a + b) % 256) 0]

/-- A commit environment whose `Apply` fails. -/
def envApplyFail : BatchEnv :=
  { putErr := fun _ => none, delErr := fun _ => none,
    applyErr := some (.backing 3), closeErr := none }

/-- A commit environment in which every store operation succeeds. -/
def envOk : BatchEnv :=
  { putErr := fun _ => none, delErr := fun _ => none,
    applyErr := none, closeErr := none }

/-- A one-leaf trie with one pending delete, used in witnesses. -/
def trieW : Trie :=
  { root := some (Node.leaf [] [1] zeroDigest none)
    dels := [([3], Node.dbn [] zeroDigest)] }

/-- Witness for C1: a commit whose `Apply` fails leaves the concrete trie
`trieW` untouched. -/
theorem commit_failure_keeps_state_witness :
    (Trie.commit hashConst trieW envApplyFail).trie = trieW :=
  (commit_failure_keeps_state hashConst trieW envApplyFail).1 (.backing 3) (by rfl)

/-- Claim C2: a successful `Commit` does not mutate the logical map — the
root field survives (only its hash caches are filled by the walk) and the
digest `RootHash` reports after the commit equals the digest before it,
granted the standing cache-validity invariant (spec §3, invariant 5) for the
pre-state root. -/
theorem commit_preserves_root_digest (H : List Nat → List Nat) (t : Trie)
    (env : BatchEnv)
    (hcache : ∀ r h, t.root = some r → r.getHash = some h → h = nodeHash H r)
    (hok : (Trie.commit H t env).err = none) :
    (Trie.commit H t env).trie.root = t.root.map (fillCaches H) ∧
    (Trie.rootHash H (Trie.commit H t env).trie).1 = (Trie.rootHash H t).1 := by
  rw [commit_ok_eq H t env hok]
  refine ⟨rfl, ?_⟩
  cases ht : t.root with
  | none => simp [Trie.rootHash, ht]
  | some r =>
    have hafter :
        (Trie.rootHash H { root := some (fillCaches H r), dels := [] }).1 =
          nodeHash H r := by
      cases r <;> simp [Trie.rootHash, fillCaches, Node.getHash, nodeHash]
    have hbefore : (Trie.rootHash H t).1 = nodeHash H r := by
      unfold Trie.rootHash
      rw [ht]
      dsimp only
      cases hg : r.getHash with
      | none =>
        simp only [hg]
      | some h0 =>
        simp only [hg]
        exact hcache r h0 ht hg
    dsimp only [Option.map]
    rw [hafter, hbefore]

/-- A one-leaf trie with an unset root cache and no pending deletes. -/
def trieW2 : Trie := { root := some (Node.leaf [] [1] zeroDigest none), dels := [] }

/-- Witness for C2: committing the concrete trie `trieW2` under an
error-free environment preserves the root digest. -/
theorem commit_preserves_root_digest_witness :
    (Trie.commit hashConst trieW2 envOk).trie.root =
      trieW2.root.map (fillCaches hashConst) ∧
    (Trie.rootHash hashConst (Trie.commit hashConst trieW2 envOk).trie).1 =
      (Trie.rootHash hashConst trieW2).1 :=
  commit_preserves_root_digest hashConst trieW2 envOk
    (by
      intro r h hr hh
      injection hr with hr2
      subst hr2
      simp [Node.getHash] at hh)
    (by rfl)

/-- Claim C6: a freshly made trie (no root) reports the 32-byte zero digest
from `RootHash`, with no error. -/
theorem roothash_empty_trie (H : List Nat → List Nat) :
    Trie.rootHash H makeTrie = (zeroDigest, none) ∧
    zeroDigest.length = 32 ∧ makeTrie.root = none :=
  ⟨rfl, by simp [zeroDigest], rfl⟩

/-- Whether the hashing walk at the start of `Commit` succeeds. -/
def hashStepOk (H : List Nat → List Nat) (t : Trie) (env : BatchEnv) : Bool :=
  match t.root with
  | none => true
  | some r =>
    match descendHashWithCommit H env.putErr r with
    | .ok _ => true
    | .error _ => false

/-- Counterexample to claim C9 as stated: an exit path of `Commit` that
returns an error (here a failing `Apply` on the empty trie) without the batch
having been closed — the source only reaches `b.Close()` after a successful
`Apply`. -/
theorem commit_batch_left_open_on_apply_error :
    (Trie.commit hashConst { root := none, dels := [] } envApplyFail).err =
      some (.backing 3) ∧
    (Trie.commit hashConst { root := none, dels := [] } envApplyFail).closeCalled
      = false :=
  ⟨rfl, rfl⟩

/-- Claim C9 (amended): `b.Close()` is invoked exactly when the hashing walk,
every batch delete, and `Apply` all succeed; the error exits before `Apply`
return with the batch still open. -/
theorem commit_close_called_iff (H : List Nat → List Nat) (t : Trie)
    (env : BatchEnv) :
    (Trie.commit H t env).closeCalled =
      (hashStepOk H t env &&
        (t.dels.findSome? (fun kv => env.delErr kv.1)).isNone &&
        env.applyErr.isNone) := by
  unfold Trie.commit hashStepOk commitAfterHash
  cases ht : t.root with
  | none =>
    dsimp only
    split
    · simp_all
    · split
      · simp_all
      · split <;> simp_all <;> try assumption
  | some r =>
    dsimp only
    cases hd : descendHashWithCommit H env.putErr r with
    | error e => simp
    | ok p =>
      dsimp only
      split
      · simp_all
      · split
        · simp_all
        · split <;> simp_all <;> try assumption

/-- Claim C10: `SetRoot` installs an unmaterialized placeholder at the empty
path carrying the digest, leaves the pending-delete set untouched, and every
key already scheduled for deletion is still deleted by the next successful
commit against the newly opened root. -/
theorem setroot_keeps_pending_deletes (H : List Nat → List Nat) (t : Trie)
    (d : Digest) (env : BatchEnv)
    (hok : (Trie.commit H (t.setRoot d) env).err = none) :
    (t.setRoot d).root = some (Node.dbn [] d) ∧
    (t.setRoot d).dels = t.dels ∧
    ∀ kv ∈ t.dels,
      BatchOp.del kv.1 ∈ ((Trie.commit H (t.setRoot d) env).applied.getD []) := by
  refine ⟨rfl, rfl, ?_⟩
  intro kv hkv
  rw [commit_ok_eq H (t.setRoot d) env hok]
  have hr : rootPuts H (t.setRoot d) = [] := rfl
  dsimp only [Option.getD]
  rw [hr, List.nil_append]
  exact List.mem_map_of_mem _ hkv

/-- Witness for C10: with one concrete pending delete, the key survives
`SetRoot` and the delete appears in the applied batch of the following
successful commit. -/
theorem setroot_keeps_pending_deletes_witness :
    (Trie.setRoot trieW zeroDigest).root = some (Node.dbn [] zeroDigest) ∧
    (Trie.setRoot trieW zeroDigest).dels = trieW.dels ∧
    ∀ kv ∈ trieW.dels,
      BatchOp.del kv.1 ∈
        ((Trie.commit hashConst (Trie.setRoot trieW zeroDigest) envOk).applied.getD
          []) :=
  setroot_keeps_pending_deletes hashConst trieW zeroDigest envOk (by rfl)

/-- Claim C3: whenever `Add` or `Delete` returns an error — in particular
when the recursive descent does — the root field is not replaced with the
returned replacement subtree, so a subsequent `RootHash` equals the pre-call
`RootHash`.  The descent functions are parameters because their bodies live
in the absent `node.go`; `trie.go` discards their replacement on error. -/
theorem mutation_error_preserves_root (H : List Nat → List Nat)
    (dA : Node → Nibs → Digest → Dels → Dels × Except GoErr Node)
    (dD : Node → Nibs → Dels → DelStep) (t : Trie) (key : Nibs)
    (v : List Nat) :
    (∀ e, (Trie.add H dA t key v).2 = some e →
      (Trie.add H dA t key v).1.root = t.root ∧
      (Trie.rootHash H (Trie.add H dA t key v).1).1 = (Trie.rootHash H t).1) ∧
    (∀ e, (Trie.delete dD t key).2.2 = some e →
      (Trie.delete dD t key).1.root = t.root ∧
      (Trie.rootHash H (Trie.delete dD t key).1).1 = (Trie.rootHash H t).1) := by
  constructor
  · intro e he
    have hroot : (Trie.add H dA t key v).1.root = t.root := by
      unfold Trie.add at he ⊢
      by_cases h0 : key.length = 0
      · simp [h0]
      · by_cases h1 : MaxKeyLength < key.length
        · simp [h0, h1]
        · simp only [if_neg h0, if_neg h1] at he ⊢
          cases ht : t.root with
          | none => simp [ht] at he
          | some r =>
            simp only [ht] at he ⊢
            cases hs : (dA r key (H v) t.dels).2 with
            | error e2 => simp [hs]
            | ok repl => simp [hs] at he
    exact ⟨hroot, by rw [rootHash_eq_of_root H _ t hroot]⟩
  · intro e he
    have hroot : (Trie.delete dD t key).1.root = t.root := by
      unfold Trie.delete at he ⊢
      by_cases h0 : key.length = 0
      · simp [h0]
      · by_cases h1 : MaxKeyLength < key.length
        · simp [h0, h1]
        · simp only [if_neg h0, if_neg h1] at he ⊢
          cases ht : t.root with
          | none => simp [ht] at he
          | some r =>
            simp only [ht] at he ⊢
            by_cases hc : (dD r key t.dels).err = none ∧ (dD r key t.dels).found
            · rw [if_pos hc] at he
              exact absurd he (by simp [hc.1])
            · rw [if_neg hc]
    exact ⟨hroot, by rw [rootHash_eq_of_root H _ t hroot]⟩

/-- A descent that always fails with a backing-store error. -/
def dAFail : Node → Nibs → Digest → Dels → Dels × Except GoErr Node :=
  fun _ _ _ d => (d, .error (.backing 5))

/-- A delete descent that always fails with a backing-store error. -/
def dDFail : Node → Nibs → Dels → DelStep :=
  fun _ _ d => { dels := d, repl := Node.absent, found := false,
                 err := some (.backing 5) }

/-- Witness for C3: a failing descent over the concrete trie `trieW` leaves
its root untouched. -/
theorem mutation_error_preserves_root_witness :
    (Trie.add hashConst dAFail trieW [1] [7]).1.root = trieW.root ∧
    (Trie.rootHash hashConst (Trie.add hashConst dAFail trieW [1] [7]).1).1 =
      (Trie.rootHash hashConst trieW).1 :=
  (mutation_error_preserves_root hashConst dAFail dDFail trieW [1] [7]).1
    (.backing 5) (by rfl)

/-- Claim C4: `Add` and `Delete` fail with `EmptyKey` exactly when the key
has length zero and with `KeyTooLong` exactly when it exceeds 65,535 nibbles
(the maximum key length); in both cases the error is returned before any
mutation, leaving the trie unchanged.  The descent parameters are assumed not
to manufacture the two guard errors, which belong to `trie.go` alone. -/
theorem mutation_guard_errors (H : List Nat → List Nat)
    (dA : Node → Nibs → Digest → Dels → Dels × Except GoErr Node)
    (dD : Node → Nibs → Dels → DelStep) (t : Trie) (key : Nibs)
    (v : List Nat)
    (hA : ∀ r k vh d e, (dA r k vh d).2 = .error e →
      e ≠ .emptyKey ∧ e ≠ .keyTooLong)
    (hD : ∀ r k d e, (dD r k d).err = some e →
      e ≠ .emptyKey ∧ e ≠ .keyTooLong) :
    ((Trie.add H dA t key v).2 = some .emptyKey ↔ key.length = 0) ∧
    ((Trie.add H dA t key v).2 = some .keyTooLong ↔ 65535 < key.length) ∧
    ((Trie.delete dD t key).2.2 = some .emptyKey ↔ key.length = 0) ∧
    ((Trie.delete dD t key).2.2 = some .keyTooLong ↔ 65535 < key.length) ∧
    ((key.length = 0 ∨ 65535 < key.length) →
      (Trie.add H dA t key v).1 = t ∧ (Trie.delete dD t key).1 = t) := by
  unfold Trie.add Trie.delete
  by_cases h0 : key.length = 0
  · simp [h0, MaxKeyLength]
  · by_cases h1 : MaxKeyLength < key.length
    · have h1n : 65535 < key.length := h1
      simp [h0, h1, MaxKeyLength, h1n]
    · have h1n : ¬65535 < key.length := h1
      simp only [if_neg h0, if_neg h1]
      cases ht : t.root with
      | none => simp [h0, h1n]
      | some r =>
        dsimp only
        refine ⟨?_, ?_, ?_, ?_, by simp [h0, h1n]⟩
        · cases hs : (dA r key (H v) t.dels).2 with
          | error e2 => simp [hs, h0, (hA r key (H v) t.dels e2 hs).1]
          | ok repl => simp [hs, h0]
        · cases hs : (dA r key (H v) t.dels).2 with
          | error e2 => simp [hs, h1n, (hA r key (H v) t.dels e2 hs).2]
          | ok repl => simp [hs, h1n]
        · cases hs : (dD r key t.dels).err with
          | none =>
            split <;> simp [h0]
          | some e2 =>
            have hne := (hD r key t.dels e2 hs).1
            split <;> simp [h0, hne]
        · cases hs : (dD r key t.dels).err with
          | none =>
            split <;> simp [h1n]
          | some e2 =>
            have hne := (hD r key t.dels e2 hs).2
            split <;> simp [h1n, hne]

/-- A descent that never errs, for witnesses. -/
def dAOk : Node → Nibs → Digest → Dels → Dels × Except GoErr Node :=
  fun r _ _ d => (d, .ok r)

/-- A delete descent that never errs, for witnesses. -/
def dDOk : Node → Nibs → Dels → DelStep :=
  fun r _ d => { dels := d, repl := r, found := false, err := none }

/-- Witness for C4: the guard behavior of `Add` and `Delete` evaluated at the
empty key over the concrete trie `trieW`. -/
theorem mutation_guard_errors_witness :
    ((Trie.add hashConst dAOk trieW [] [7]).2 = some .emptyKey ↔
      ([] : Nibs).length = 0) ∧
    ((Trie.add hashConst dAOk trieW [] [7]).2 = some .keyTooLong ↔
      65535 < ([] : Nibs).length) ∧
    ((Trie.delete dDOk trieW []).2.2 = some .emptyKey ↔
      ([] : Nibs).length = 0) ∧
    ((Trie.delete dDOk trieW []).2.2 = some .keyTooLong ↔
      65535 < ([] : Nibs).length) ∧
    ((([] : Nibs).length = 0 ∨ 65535 < ([] : Nibs).length) →
      (Trie.add hashConst dAOk trieW [] [7]).1 = trieW ∧
      (Trie.delete dDOk trieW []).1 = trieW) :=
  mutation_guard_errors hashConst dAOk dDOk trieW [] [7]
    (fun _ _ _ _ _ h => Except.noConfusion h)
    (fun _ _ _ _ h => Option.noConfusion h)

/-- A backing store whose `Get` always fails. -/
def storeFail : List Nat → Except GoErr (List Nat) :=
  fun _ => .error (.backing 7)

/-- Claim C5, evaluated on the code: `getNode` with the placeholder's
database key in the pending-delete set reports absent without consulting the
store (the first conjunct holds for every store); but when the store's `Get`
fails, `trie.go` panics instead of returning a `BackingStoreError` — the
second conjunct exhibits the panic at a concrete input, refuting the claimed
error return (it also returns loaded nodes without stamping their hash
caches). -/
theorem getnode_pending_delete_and_panic :
    (∀ store, Trie.getNode { root := none, dels := [(nibSer [], Node.dbn [] zeroDigest)] }
      store [] = .absent) ∧
    Trie.getNode { root := none, dels := [] } storeFail [] =
      .panicked (.backing 7) :=
  ⟨fun _ => rfl, rfl⟩

theorem delsGet_cons (kv : List Nat × Node) (d : Dels) (k : List Nat) :
    delsGet (kv :: d) k = if kv.1 = k then some kv.2 else delsGet d k := by
  by_cases h : kv.1 = k
  · rw [delsGet, List.find?_cons_of_pos d (by simp [h]), if_pos h]
    rfl
  · rw [delsGet, List.find?_cons_of_neg d (by simp [h]), if_neg h]
    rfl

theorem delsGet_filter_ne (d : Dels) (k k2 : List Nat) (h : k2 ≠ k) :
    delsGet (d.filter (fun kv => !(kv.1 == k))) k2 = delsGet d k2 := by
  induction d with
  | nil => rfl
  | cons kv d ih =>
    by_cases hk : kv.1 = k
    · rw [List.filter_cons_of_neg (by simp [hk]), ih, delsGet_cons]
      have : ¬kv.1 = k2 := by rw [hk]; exact fun hc => h hc.symm
      simp [this]
    · rw [List.filter_cons_of_pos (by simp [hk]), delsGet_cons, delsGet_cons, ih]

theorem delsGet_insert (d : Dels) (k : List Nat) (v : Node) (k2 : List Nat) :
    delsGet (delsInsert d k v) k2 = if k2 = k then some v else delsGet d k2 := by
  by_cases h : k2 = k
  · subst h
    simp [delsInsert, delsGet_cons]
  · rw [delsInsert, delsGet_cons]
    have : ¬k = k2 := fun hc => h hc.symm
    simp only [this, if_neg, if_false]
    rw [delsGet_filter_ne d k k2 h]
    simp [h]

theorem delsGet_eq_none_of_not_mem (d : Dels) (k : List Nat)
    (h : k ∉ d.map Prod.fst) : delsGet d k = none := by
  induction d with
  | nil => rfl
  | cons kv d ih =>
    simp only [List.map_cons, List.mem_cons] at h
    push_neg at h
    rw [delsGet_cons]
    have hne : ¬kv.1 = k := fun hc => h.1 hc.symm
    rw [if_neg hne]
    exact ih h.2

theorem delsGet_merge (c : Dels) : ∀ p : Dels, (c.map Prod.fst).Nodup →
    ∀ k, delsGet (c.foldl (fun acc kv => delsInsert acc kv.1 kv.2) p) k =
      orO (delsGet c k) (delsGet p k) := by
  induction c with
  | nil =>
    intro p _ k
    rfl
  | cons kv c ih =>
    intro p hnd k
    simp only [List.map_cons, List.nodup_cons] at hnd
    rw [List.foldl_cons, ih (delsInsert p kv.1 kv.2) hnd.2 k, delsGet_cons,
      delsGet_insert]
    by_cases hk : k = kv.1
    · subst hk
      have hc : delsGet c kv.1 = none :=
        delsGet_eq_none_of_not_mem c kv.1 hnd.1
      simp [hc, orO]
    · have hne : ¬kv.1 = k := fun hcc => hk hcc.symm
      simp [hne, hk]

/-- Claim C8: `child()` returns a nested manager with the same root reference
and an empty pending-delete set; `merge()` overwrites the parent's root with
the nested root and copies every nested pending-delete entry into the
parent's (nested entries winning); `Commit` on a nested manager first merges
and then commits on the parent. -/
theorem child_merge_commit (H : List Nat → List Nat) (t p c : Trie)
    (env : BatchEnv) (hnd : (c.dels.map Prod.fst).Nodup) :
    (t.childT.root = t.root ∧ t.childT.dels = []) ∧
    ((Trie.mergeT p c).root = c.root ∧
      ∀ k, delsGet (Trie.mergeT p c).dels k =
        orO (delsGet c.dels k) (delsGet p.dels k)) ∧
    Trie.commitNested H p c env = Trie.commit H (Trie.mergeT p c) env := by
  refine ⟨⟨rfl, rfl⟩, ⟨rfl, ?_⟩, rfl⟩
  intro k
  exact delsGet_merge c.dels p.dels hnd k

/-- Witness for C8: concrete parent and nested tries with duplicate-free
nested delete keys. -/
theorem child_merge_commit_witness :
    (Trie.childT trieW2).root = trieW2.root ∧ (Trie.childT trieW2).dels = [] ∧
    (Trie.mergeT trieW trieW2).root = trieW2.root ∧
    delsGet (Trie.mergeT trieW trieW2).dels [3] =
      orO (delsGet trieW2.dels [3]) (delsGet trieW.dels [3]) := by
  have h := child_merge_commit hashConst trieW2 trieW trieW2 envOk (by simp [trieW2])
  exact ⟨h.1.1, h.1.2, h.2.1.1, h.2.1.2 [3]⟩
